import Mathlib

/-
Verification of the log-snippet extraction and event-normalization core of the
Intelligent CI/CD Pipeline Assistant.

Python strings are embedded as `List Char` (a Python `str` is a sequence of
code points); webhook payloads as the JSON-like inductive `PyVal`; functions
that can raise (attribute access on non-mappings) return `Except PyError`.
Embedded modules:
  - `ProcessEvent` : `normalize_event` and the event-path `extract_error_blocks`
    from process_event.py;
  - `LogProcessor` : the regex-based `extract_error_blocks` and `make_summary`
    from log_processor.py.
-/

/-- Python/JSON-like structured values: `None`, booleans, integers, strings,
lists, and string-keyed dicts (webhook payloads are parsed JSON bodies). -/
inductive PyVal where
  | none : PyVal
  | bool : Bool → PyVal
  | int : Int → PyVal
  | str : String → PyVal
  | list : List PyVal → PyVal
  | dict : List (String × PyVal) → PyVal

/-- The only exception the modelled code can raise: calling `.get` on a value
that is not a mapping (Python `AttributeError`). -/
inductive PyError where
  | attributeError : PyError

/-- Lookup of a key in a dict's key/value list (first binding wins, as Python
dicts have unique keys). `some v` when the key is present, `none` otherwise. -/
def dictGet (kvs : List (String × PyVal)) (k : String) : Option PyVal :=
  (kvs.find? (fun kv => kv.fst == k)).map Prod.snd

/-- Python `d.get(k)`: the value when present, `None` otherwise. -/
def pyDictGet (kvs : List (String × PyVal)) (k : String) : PyVal :=
  (dictGet kvs k).getD PyVal.none

/-- Python `d.get(k, default)`. -/
def pyDictGetD (kvs : List (String × PyVal)) (k : String) (d : PyVal) : PyVal :=
  (dictGet kvs k).getD d

/-- Python `k in d` for a dict. -/
def hasKey (kvs : List (String × PyVal)) (k : String) : Bool :=
  (dictGet kvs k).isSome

/-- Python truthiness of a JSON-like value. -/
def pyTruthy : PyVal → Bool
  | PyVal.none => false
  | PyVal.bool b => b
  | PyVal.int n => decide (n ≠ 0)
  | PyVal.str s => decide (s ≠ "")
  | PyVal.list xs => !xs.isEmpty
  | PyVal.dict kvs => !kvs.isEmpty

/-- Python `a or b`: `a` when truthy, else `b`. -/
def pyOr (a b : PyVal) : PyVal :=
  if pyTruthy a then a else b

/-- Whether a value is a mapping. -/
def isDict : PyVal → Bool
  | PyVal.dict _ => true
  | _ => false

/-- Whether a value is a string. -/
def isStr : PyVal → Bool
  | PyVal.str _ => true
  | _ => false

/-- Escaping for the string serializations below.  Only the common escapes of
`json.dumps` are modelled (quote, backslash, newline, tab, carriage return);
the exact rendering is never relied on by any theorem. -/
def jsonEscape (s : String) : String :=
  String.join (s.data.map fun c =>
    if c = '"' then "\\\""
    else if c = '\\' then "\\\\"
    else if c = '\n' then "\\n"
    else if c = '\t' then "\\t"
    else if c = '\r' then "\\r"
    else String.singleton c)

mutual

/-- Python `json.dumps` on JSON-like values, with the default separators.
Modelled up to string-escape details, which no theorem depends on. -/
def jsonDumps : PyVal → String
  | PyVal.none => "null"
  | PyVal.bool true => "true"
  | PyVal.bool false => "false"
  | PyVal.int n => toString n
  | PyVal.str s => "\"" ++ jsonEscape s ++ "\""
  | PyVal.list xs => "[" ++ String.intercalate ", " (jsonDumpsElems xs) ++ "]"
  | PyVal.dict kvs => "\x7b" ++ String.intercalate ", " (jsonDumpsPairs kvs) ++ "\x7d"

/-- Serialization of the elements of a JSON list. -/
def jsonDumpsElems : List PyVal → List String
  | [] => []
  | v :: vs => jsonDumps v :: jsonDumpsElems vs

/-- Serialization of the key/value pairs of a JSON object. -/
def jsonDumpsPairs : List (String × PyVal) → List String
  | [] => []
  | (k, v) :: kvs => ("\"" ++ jsonEscape k ++ "\": " ++ jsonDumps v) :: jsonDumpsPairs kvs

end

mutual

/-- Python `repr` on JSON-like values, modelled up to string-quoting details
(no escaping inside quotes), which no theorem depends on. -/
def pyRepr : PyVal → String
  | PyVal.none => "None"
  | PyVal.bool true => "True"
  | PyVal.bool false => "False"
  | PyVal.int n => toString n
  | PyVal.str s => "'" ++ s ++ "'"
  | PyVal.list xs => "[" ++ String.intercalate ", " (pyReprElems xs) ++ "]"
  | PyVal.dict kvs => "\x7b" ++ String.intercalate ", " (pyReprPairs kvs) ++ "\x7d"

/-- Serialization by `repr` of the elements of a list. -/
def pyReprElems : List PyVal → List String
  | [] => []
  | v :: vs => pyRepr v :: pyReprElems vs

/-- Serialization by `repr` of the key/value pairs of a dict. -/
def pyReprPairs : List (String × PyVal) → List String
  | [] => []
  | (k, v) :: kvs => ("'" ++ k ++ "': " ++ pyRepr v) :: pyReprPairs kvs

end

/-- Python `str()`: identity on strings, `repr` otherwise (for `None`, bools
and ints `str` and `repr` agree). -/
def pyStr : PyVal → String
  | PyVal.str s => s
  | v => pyRepr v

/-- Python `l[-n:]` on sequences (also `s[-n:]` on strings as char lists), for
a positive literal `n`: the final `min n (length l)` elements. -/
def takeLast {α : Type} (n : Nat) (l : List α) : List α :=
  l.drop (l.length - n)

/-- Python `sep.join`, on char lists. -/
def joinSep {α : Type} (sep : List α) : List (List α) → List α
  | [] => []
  | [x] => x
  | x :: xs => x ++ sep ++ joinSep sep xs

/-- Python `str.isspace` on a single character (the whitespace set used by
`str.strip`). -/
def pyIsSpace (c : Char) : Bool :=
  [' ', '\t', '\n', '\r', '\x0b', '\x0c', '\x1c', '\x1d', '\x1e', '\x1f',
   '\x85', '\xa0', '\u1680', '\u2000', '\u2001', '\u2002', '\u2003', '\u2004',
   '\u2005', '\u2006', '\u2007', '\u2008', '\u2009', '\u200a', '\u2028',
   '\u2029', '\u202f', '\u205f', '\u3000'].contains c

/-- Python `str.strip()`: remove leading and trailing whitespace. -/
def pyStrip (s : List Char) : List Char :=
  ((s.dropWhile pyIsSpace).reverse.dropWhile pyIsSpace).reverse

/-- The line-boundary characters of Python `str.splitlines` (`\r\n` counts as
a single boundary and is handled separately in `splitGo`). -/
def lineBoundary (c : Char) : Bool :=
  ['\n', '\r', '\x0b', '\x0c', '\x1c', '\x1d', '\x1e', '\x85', '\u2028',
   '\u2029'].contains c

/-- Worker for `pySplitlines`: `acc` holds the current line reversed.  A
trailing boundary does not open a new (empty) final line, matching Python. -/
def splitGo (acc : List Char) : List Char → List (List Char)
  | [] => [acc.reverse]
  | '\r' :: '\n' :: rest =>
      acc.reverse :: (if rest.isEmpty then [] else splitGo [] rest)
  | c :: rest =>
      if lineBoundary c then acc.reverse :: (if rest.isEmpty then [] else splitGo [] rest)
      else splitGo (c :: acc) rest

/-- Python `str.splitlines()`. -/
def pySplitlines (l : List Char) : List (List Char) :=
  if l.isEmpty then [] else splitGo [] l

namespace LogProcessor

/-- One entry of `ERROR_PATTERNS`.  Each of the three regexes has the shape
literal-marker, then a lazy any-character group (`[\s\S]+?` resp. `(?s).*?`)
of at least `minContent` characters, terminated by `(?:\n\n|\Z)` (a blank line,
consumed by the match but not captured, or end of input). -/
structure ErrorPattern where
  marker : List Char
  minContent : Nat

/-- The ERROR_PATTERNS list from log_processor.py, in priority order:
`(Traceback \(most recent call last\):[\s\S]+?)(?:\n\n|\Z)` (MULTILINE, which
is inert: the pattern has no `^`/`$`), `(?s)(ERROR:.*?)(?:\n\n|\Z)`, and
`(?s)(Exception:.*?)(?:\n\n|\Z)`. -/
def ERROR_PATTERNS : List ErrorPattern :=
  [⟨"Traceback (most recent call last):".data, 1⟩,
   ⟨"ERROR:".data, 0⟩,
   ⟨"Exception:".data, 0⟩]

/-- Whether the two characters at offset `k` of `rest` are a blank line
(`\n\n`). -/
def nlnlAt (rest : List Char) (k : Nat) : Bool :=
  (rest.drop k).take 2 = ['\n', '\n']

/-- Lazy completion of a match: the least content length `k ≥ minC` at which
the terminator `(?:\n\n|\Z)` succeeds.  `none` exactly when fewer than `minC`
characters remain. -/
def stopIdx (rest : List Char) (minC : Nat) : Option Nat :=
  (List.range (rest.length + 1)).find? fun k =>
    decide (minC ≤ k) && (nlnlAt rest k || decide (k = rest.length))

/-- Python `re.finditer` for one `ErrorPattern`: scan positions left to right; at a
position where the literal marker matches, complete lazily and resume after
the whole match (including a consumed `\n\n`), giving non-overlapping matches;
otherwise advance one position.  `fuel` bounds the recursion and is started at
`length + 1`, which the scan can never exhaust. -/
def scanPat (marker : List Char) (minC : Nat) : Nat → List Char → List (List Char)
  | 0, _ => []
  | _, [] => []
  | fuel + 1, s =>
    if marker.isPrefixOf s then
      let rest := s.drop marker.length
      match stopIdx rest minC with
      | some k =>
        let group := marker ++ rest.take k
        let resume := if nlnlAt rest k then rest.drop (k + 2) else rest.drop k
        group :: scanPat marker minC fuel resume
      | none => scanPat marker minC fuel (s.drop 1)
    else scanPat marker minC fuel (s.drop 1)

/-- All matches (captured groups) of one pattern class over the whole log, in
document order. -/
def patMatches (p : ErrorPattern) (log : List Char) : List (List Char) :=
  scanPat p.marker p.minContent (log.length + 1) log

/-- The inner `for m in pat.finditer(log)` loop body of
`extract_error_blocks`: append each stripped group to `blocks` and return
(flag `true`) as soon as `max_blocks ≤ len(blocks)`. -/
def appendCapped (max_blocks : Nat) (blocks : List (List Char)) :
    List (List Char) → List (List Char) × Bool
  | [] => (blocks, false)
  | m :: ms =>
    let blocks' := blocks ++ [pyStrip m]
    if max_blocks ≤ blocks'.length then (blocks', true)
    else appendCapped max_blocks blocks' ms

/-- The outer `for pat in ERROR_PATTERNS` loop: a `true` flag propagates the
early `return blocks`. -/
def runPatterns (max_blocks : Nat) (log : List Char) :
    List ErrorPattern → List (List Char) → List (List Char) × Bool
  | [], blocks => (blocks, false)
  | p :: ps, blocks =>
    match appendCapped max_blocks blocks (patMatches p log) with
    | (blocks', true) => (blocks', true)
    | (blocks', false) => runPatterns max_blocks log ps blocks'

/-- The function extract_error_blocks from log_processor.py.  Note the control flow of the
source: the collected `blocks` are returned only by the early return inside
the loops (when the cap is reached); otherwise the function falls through to
`return ["\n".join(log.splitlines()[-500:])]`. -/
def extract_error_blocks (log : List Char) (max_blocks : Nat) : List (List Char) :=
  match runPatterns max_blocks log ERROR_PATTERNS [] with
  | (blocks, true) => blocks
  | (_, false) => [joinSep ['\n'] (takeLast 500 (pySplitlines log))]

/-- A blank-line separator. -/
def nlnl : List Char := ['\n', '\n']

/-- The f-string header `--- Error block {i} (first 2000 chars) ---`. -/
def blockHeader (i : Nat) : List Char :=
  ("--- Error block " ++ toString i ++ " (first 2000 chars) ---").data

/-- The list named out built by `make_summary`: for each block, its header and its
first 2000 characters, numbering from 1. -/
def summaryItems : Nat → List (List Char) → List (List Char)
  | _, [] => []
  | i, b :: bs => blockHeader i :: b.take 2000 :: summaryItems (i + 1) bs

/-- The function make_summary from log_processor.py: `"\n\n".join(out)`. -/
def make_summary (blocks : List (List Char)) : List Char :=
  joinSep nlnl (summaryItems 1 blocks)

/-- Spec-side summary builder, following the claim's words: each block yields
one header-plus-truncated-block pair (header, blank line, first 2000 chars of
the block), numbered from 1. -/
def summaryPairs : Nat → List (List Char) → List (List Char)
  | _, [] => []
  | i, b :: bs => (blockHeader i ++ nlnl ++ b.take 2000) :: summaryPairs (i + 1) bs

/-- Spec-side summary: the pairs joined by a blank line. -/
def make_summary_spec (blocks : List (List Char)) : List Char :=
  joinSep nlnl (summaryPairs 1 blocks)

end LogProcessor

namespace ProcessEvent

/-- The canonical event record produced by normalize_event.  `source` is
always one of the three literal strings; the other fields hold arbitrary
payload values. -/
structure CanonicalEvent where
  source : String
  status : PyVal
  url : PyVal
  logs : PyVal
  metadata : PyVal

/-- The Jenkins branch of normalize_event: four `.get` calls on
`build = payload.get("build", {})`.  When `build` is not a mapping the first
`.get` raises `AttributeError`; `full_url or url` and `logs or ""` are
Python `or`, i.e. truthiness-based fallback. -/
def jenkinsShape (payload : PyVal) (build : PyVal) : Except PyError CanonicalEvent :=
  match build with
  | PyVal.dict bkvs =>
    Except.ok
      { source := "jenkins"
      , status := pyDictGet bkvs "status"
      , url := pyOr (pyDictGet bkvs "full_url") (pyDictGet bkvs "url")
      , logs := pyOr (pyDictGet bkvs "logs") (PyVal.str "")
      , metadata := payload }
  | _ => Except.error PyError.attributeError

/-- The GitHub Actions branch of normalize_event: one `.get` on
`run = payload.get("workflow_run", {})`, raising when `run` is not a
mapping. -/
def githubShape (payload : PyVal) (kvs : List (String × PyVal)) (run : PyVal) :
    Except PyError CanonicalEvent :=
  match run with
  | PyVal.dict rkvs =>
    Except.ok
      { source := "github"
      , status := pyDictGet kvs "action"
      , url := pyDictGet rkvs "html_url"
      , logs := PyVal.str ""
      , metadata := payload }
  | _ => Except.error PyError.attributeError

/-- The function normalize_event from process_event.py. -/
def normalize_event (payload : PyVal) : Except PyError CanonicalEvent :=
  match payload with
  | PyVal.dict kvs =>
    if hasKey kvs "build" then
      jenkinsShape payload (pyDictGetD kvs "build" (PyVal.dict []))
    else if hasKey kvs "workflow_run" then
      githubShape payload kvs (pyDictGetD kvs "workflow_run" (PyVal.dict []))
    else
      Except.ok
        { source := "unknown"
        , status := PyVal.none
        , url := PyVal.none
        , logs := PyVal.str (jsonDumps payload)
        , metadata := payload }
  | p =>
    Except.ok
      { source := "unknown"
      , status := PyVal.none
      , url := PyVal.none
      , logs := PyVal.str (pyStr p)
      , metadata := p }

/-- Python `str.rfind` restricted to start positions `≤ n`: the largest
`i ≤ n` at which `pat` occurs in `hay`, scanning downward. -/
def rfindAux (hay pat : List Char) : Nat → Option Nat
  | 0 => if pat.isPrefixOf hay then some 0 else none
  | i + 1 =>
    if pat.isPrefixOf (hay.drop (i + 1)) then some (i + 1)
    else rfindAux hay pat i

/-- Python `hay.rfind(pat)` as an `Option` (the source's `-1` sentinel becomes
`none`). -/
def pyRfind (hay pat : List Char) : Option Nat :=
  rfindAux hay pat hay.length

/-- The marker list of the event-path extractor, in source order. -/
def pe_markers : List (List Char) :=
  ["Traceback".data, "Exception".data, "ERROR".data, "error:".data, "fatal:".data]

/-- The `for m in markers` loop of the event-path extract_error_blocks: the
first marker (in list order) with an occurrence wins, and the suffix of `tail`
from that marker's last occurrence is returned. -/
def scanMarkers (tail : List Char) : List (List Char) → Option (List Char)
  | [] => Option.none
  | m :: ms =>
    match pyRfind tail m with
    | some idx => some (tail.drop idx)
    | Option.none => scanMarkers tail ms

/-- The function extract_error_blocks from process_event.py (the event-path extractor,
returning a single string): empty (falsy) input short-circuits to `""`;
otherwise truncate to the last 16000 characters, return from the chosen
marker occurrence, or fall back to the last 2000 characters. -/
def extract_error_blocks (log_text : List Char) : List Char :=
  if log_text.isEmpty then []
  else
    let tail := takeLast 16000 log_text
    match scanMarkers tail pe_markers with
    | some r => r
    | Option.none => takeLast 2000 tail

/-- Spec-side occurrence test: `pat` occurs in `hay` (at some start position
within the text). -/
def occursB (pat hay : List Char) : Bool :=
  (List.range (hay.length + 1)).any fun i => pat.isPrefixOf (hay.drop i)

/-- Spec-side "last occurrence" test: `pat` occurs at `i`, and at no later
position of the text. -/
def lastOccB (pat hay : List Char) (i : Nat) : Bool :=
  decide (i ≤ hay.length) && pat.isPrefixOf (hay.drop i) &&
    ((List.range (hay.length + 1)).all fun j =>
      !(pat.isPrefixOf (hay.drop j)) || decide (j ≤ i))

/-- The condition under which normalize_event cannot raise: whenever a `build`
key is present its value is a mapping, and otherwise whenever a
`workflow_run` key is present its value is a mapping. -/
def normalizeTotalOn (p : PyVal) : Bool :=
  match p with
  | PyVal.dict kvs =>
    match dictGet kvs "build" with
    | some b => isDict b
    | Option.none =>
      match dictGet kvs "workflow_run" with
      | some r => isDict r
      | Option.none => true
  | _ => true

/-- A payload (possibly not a mapping) lacking both the `build` and the
`workflow_run` keys. -/
def lacksBoth (p : PyVal) : Bool :=
  match p with
  | PyVal.dict kvs => !hasKey kvs "build" && !hasKey kvs "workflow_run"
  | _ => true

end ProcessEvent

/-- A small Jenkins build mapping used to instantiate witnesses. -/
def sampleJenkinsBuild : List (String × PyVal) := [("logs", PyVal.str "L")]

/-- A Jenkins-shaped payload used to instantiate witnesses. -/
def sampleJenkinsPayload : List (String × PyVal) := [("build", PyVal.dict sampleJenkinsBuild)]

/-- A workflow_run mapping used to instantiate witnesses. -/
def sampleGithubRun : List (String × PyVal) := [("html_url", PyVal.str "h")]

/-- A GitHub-Actions-shaped payload used to instantiate witnesses. -/
def sampleGithubPayload : List (String × PyVal) :=
  [("action", PyVal.str "completed"), ("workflow_run", PyVal.dict sampleGithubRun)]

/-- C7: for every payload on which normalize_event returns, the result's
metadata equals the payload itself, and normalizing the metadata reproduces
the same canonical event. -/
theorem normalize_event_idempotent (p : PyVal) (e : ProcessEvent.CanonicalEvent)
    (h : ProcessEvent.normalize_event p = Except.ok e) :
    e.metadata = p ∧ ProcessEvent.normalize_event e.metadata = Except.ok e := by
  have hm : e.metadata = p := by
    cases p with
    | dict kvs =>
      simp only [ProcessEvent.normalize_event] at h
      split at h
      · simp only [ProcessEvent.jenkinsShape] at h
        split at h
        · injection h with h'; subst h'; rfl
        · exact absurd h (by simp)
      · split at h
        · simp only [ProcessEvent.githubShape] at h
          split at h
          · injection h with h'; subst h'; rfl
          · exact absurd h (by simp)
        · injection h with h'; subst h'; rfl
    | none => simp only [ProcessEvent.normalize_event] at h; injection h with h'; subst h'; rfl
    | bool b => simp only [ProcessEvent.normalize_event] at h; injection h with h'; subst h'; rfl
    | int n => simp only [ProcessEvent.normalize_event] at h; injection h with h'; subst h'; rfl
    | str s => simp only [ProcessEvent.normalize_event] at h; injection h with h'; subst h'; rfl
    | list xs => simp only [ProcessEvent.normalize_event] at h; injection h with h'; subst h'; rfl
  exact ⟨hm, hm ▸ h⟩

/-- C7 witness: the idempotence theorem instantiated at a concrete Jenkins
payload. -/
theorem normalize_event_idempotent_witness :
    (ProcessEvent.CanonicalEvent.mk "jenkins" PyVal.none PyVal.none (PyVal.str "L")
        (PyVal.dict sampleJenkinsPayload)).metadata = PyVal.dict sampleJenkinsPayload ∧
    ProcessEvent.normalize_event
        (ProcessEvent.CanonicalEvent.mk "jenkins" PyVal.none PyVal.none (PyVal.str "L")
          (PyVal.dict sampleJenkinsPayload)).metadata =
      Except.ok (ProcessEvent.CanonicalEvent.mk "jenkins" PyVal.none PyVal.none (PyVal.str "L")
        (PyVal.dict sampleJenkinsPayload)) :=
  normalize_event_idempotent (PyVal.dict sampleJenkinsPayload) _ rfl

/-- C2 counterexample: on the payload with a `build` key whose value is null,
normalize_event raises `AttributeError` instead of returning a canonical
event, so it is not total over arbitrary structured input. -/
theorem normalize_event_raises_on_null_build :
    ProcessEvent.normalize_event (PyVal.dict [("build", PyVal.none)]) =
      Except.error PyError.attributeError := rfl

/-- C2 (amended): normalize_event never raises provided that a present `build`
value is a mapping (and, failing a `build` key, that a present `workflow_run`
value is a mapping); and on every payload lacking both keys it returns a
canonical event with source `unknown` without raising. -/
theorem normalize_event_total_on_safe_payloads (p : PyVal) :
    (ProcessEvent.normalizeTotalOn p = true →
      ∃ e, ProcessEvent.normalize_event p = Except.ok e) ∧
    (ProcessEvent.lacksBoth p = true →
      ∃ e, ProcessEvent.normalize_event p = Except.ok e ∧ e.source = "unknown") := by
  constructor
  · intro h
    cases p with
    | dict kvs =>
      simp only [ProcessEvent.normalizeTotalOn] at h
      cases hb : dictGet kvs "build" with
      | some b =>
        simp only [hb] at h
        cases b with
        | dict bkvs =>
          refine ⟨⟨"jenkins", pyDictGet bkvs "status",
            pyOr (pyDictGet bkvs "full_url") (pyDictGet bkvs "url"),
            pyOr (pyDictGet bkvs "logs") (PyVal.str ""), PyVal.dict kvs⟩, ?_⟩
          simp [ProcessEvent.normalize_event, hasKey, hb, pyDictGetD,
            ProcessEvent.jenkinsShape]
        | none => simp [isDict] at h
        | bool x => simp [isDict] at h
        | int x => simp [isDict] at h
        | str x => simp [isDict] at h
        | list x => simp [isDict] at h
      | none =>
        simp only [hb] at h
        cases hw : dictGet kvs "workflow_run" with
        | some r =>
          simp only [hw] at h
          cases r with
          | dict rkvs =>
            refine ⟨⟨"github", pyDictGet kvs "action", pyDictGet rkvs "html_url",
              PyVal.str "", PyVal.dict kvs⟩, ?_⟩
            simp [ProcessEvent.normalize_event, hasKey, hb, hw, pyDictGetD,
              ProcessEvent.githubShape]
          | none => simp [isDict] at h
          | bool x => simp [isDict] at h
          | int x => simp [isDict] at h
          | str x => simp [isDict] at h
          | list x => simp [isDict] at h
        | none =>
          refine ⟨⟨"unknown", PyVal.none, PyVal.none,
            PyVal.str (jsonDumps (PyVal.dict kvs)), PyVal.dict kvs⟩, ?_⟩
          simp [ProcessEvent.normalize_event, hasKey, hb, hw]
    | none => exact ⟨_, rfl⟩
    | bool b => exact ⟨_, rfl⟩
    | int n => exact ⟨_, rfl⟩
    | str s => exact ⟨_, rfl⟩
    | list xs => exact ⟨_, rfl⟩
  · intro h
    cases p with
    | dict kvs =>
      simp only [ProcessEvent.lacksBoth, Bool.and_eq_true, Bool.not_eq_true'] at h
      refine ⟨⟨"unknown", PyVal.none, PyVal.none, PyVal.str (jsonDumps (PyVal.dict kvs)),
        PyVal.dict kvs⟩, ?_, rfl⟩
      simp [ProcessEvent.normalize_event, h.1, h.2]
    | none => exact ⟨_, rfl, rfl⟩
    | bool b => exact ⟨_, rfl, rfl⟩
    | int n => exact ⟨_, rfl, rfl⟩
    | str s => exact ⟨_, rfl, rfl⟩
    | list xs => exact ⟨_, rfl, rfl⟩

/-- C2 witness: the totality theorem instantiated at the empty mapping, which
is safe and lacks both keys. -/
theorem normalize_event_total_on_safe_payloads_witness :
    (∃ e, ProcessEvent.normalize_event (PyVal.dict []) = Except.ok e) ∧
    (∃ e, ProcessEvent.normalize_event (PyVal.dict []) = Except.ok e ∧
      e.source = "unknown") :=
  ⟨(normalize_event_total_on_safe_payloads (PyVal.dict [])).1 (by decide),
   (normalize_event_total_on_safe_payloads (PyVal.dict [])).2 (by decide)⟩

/-- C4 counterexample: when the `build` value is not a mapping normalize_event
raises instead of returning; and with `full_url` present but empty the result
url is the plain `url` value, not the present `full_url` field. -/
theorem normalize_event_jenkins_claim_fails :
    ProcessEvent.normalize_event (PyVal.dict [("build", PyVal.str "s")]) =
      Except.error PyError.attributeError ∧
    ProcessEvent.normalize_event
        (PyVal.dict [("build", PyVal.dict [("full_url", PyVal.str ""), ("url", PyVal.str "u")])]) =
      Except.ok (ProcessEvent.CanonicalEvent.mk "jenkins" PyVal.none (PyVal.str "u")
        (PyVal.str "")
        (PyVal.dict [("build", PyVal.dict [("full_url", PyVal.str ""), ("url", PyVal.str "u")])])) ∧
    PyVal.str "u" ≠ PyVal.str "" := by
  refine ⟨rfl, rfl, ?_⟩
  intro hcontra
  simp at hcontra

/-- C4 (amended): for every mapping payload whose `build` value is itself a
mapping, normalize_event returns source jenkins, status the build's status
value, url the build's full_url value when truthy else its url value, and
logs the build's logs value when truthy else the empty string. -/
theorem normalize_event_jenkins_amended (kvs bkvs : List (String × PyVal))
    (h : dictGet kvs "build" = some (PyVal.dict bkvs)) :
    ∃ e : ProcessEvent.CanonicalEvent,
      ProcessEvent.normalize_event (PyVal.dict kvs) = Except.ok e ∧
      e.source = "jenkins" ∧
      e.status = pyDictGet bkvs "status" ∧
      e.url = (if pyTruthy (pyDictGet bkvs "full_url") = true
               then pyDictGet bkvs "full_url" else pyDictGet bkvs "url") ∧
      e.logs = (if pyTruthy (pyDictGet bkvs "logs") = true
                then pyDictGet bkvs "logs" else PyVal.str "") := by
  refine ⟨⟨"jenkins", pyDictGet bkvs "status",
    pyOr (pyDictGet bkvs "full_url") (pyDictGet bkvs "url"),
    pyOr (pyDictGet bkvs "logs") (PyVal.str ""), PyVal.dict kvs⟩, ?_, rfl, rfl, ?_, ?_⟩
  · simp [ProcessEvent.normalize_event, hasKey, h, pyDictGetD, ProcessEvent.jenkinsShape]
  · cases hc : pyTruthy (pyDictGet bkvs "full_url") <;> simp [pyOr, hc]
  · cases hc : pyTruthy (pyDictGet bkvs "logs") <;> simp [pyOr, hc]

/-- C4 witness: the amended Jenkins theorem instantiated at a concrete
payload. -/
theorem normalize_event_jenkins_amended_witness :
    ∃ e : ProcessEvent.CanonicalEvent,
      ProcessEvent.normalize_event (PyVal.dict sampleJenkinsPayload) = Except.ok e ∧
      e.source = "jenkins" ∧
      e.status = pyDictGet sampleJenkinsBuild "status" ∧
      e.url = (if pyTruthy (pyDictGet sampleJenkinsBuild "full_url") = true
               then pyDictGet sampleJenkinsBuild "full_url"
               else pyDictGet sampleJenkinsBuild "url") ∧
      e.logs = (if pyTruthy (pyDictGet sampleJenkinsBuild "logs") = true
                then pyDictGet sampleJenkinsBuild "logs" else PyVal.str "") :=
  normalize_event_jenkins_amended sampleJenkinsPayload sampleJenkinsBuild rfl

/-- C5 counterexample: a payload whose `workflow_run` value is not a mapping
makes normalize_event raise instead of returning the claimed github event. -/
theorem normalize_event_github_claim_fails :
    ProcessEvent.normalize_event (PyVal.dict [("workflow_run", PyVal.int 42)]) =
      Except.error PyError.attributeError := rfl

/-- C5 (amended): for every mapping payload lacking a `build` key whose
`workflow_run` value is itself a mapping, normalize_event returns source
github, status the payload's top-level action value, url the run's html_url
value, and empty-string logs. -/
theorem normalize_event_github_amended (kvs rkvs : List (String × PyVal))
    (hb : dictGet kvs "build" = Option.none)
    (hw : dictGet kvs "workflow_run" = some (PyVal.dict rkvs)) :
    ∃ e : ProcessEvent.CanonicalEvent,
      ProcessEvent.normalize_event (PyVal.dict kvs) = Except.ok e ∧
      e.source = "github" ∧
      e.status = pyDictGet kvs "action" ∧
      e.url = pyDictGet rkvs "html_url" ∧
      e.logs = PyVal.str "" := by
  refine ⟨⟨"github", pyDictGet kvs "action", pyDictGet rkvs "html_url",
    PyVal.str "", PyVal.dict kvs⟩, ?_, rfl, rfl, rfl, rfl⟩
  simp [ProcessEvent.normalize_event, hasKey, hb, hw, pyDictGetD, ProcessEvent.githubShape]

/-- C5 witness: the amended GitHub theorem instantiated at a concrete
payload. -/
theorem normalize_event_github_amended_witness :
    ∃ e : ProcessEvent.CanonicalEvent,
      ProcessEvent.normalize_event (PyVal.dict sampleGithubPayload) = Except.ok e ∧
      e.source = "github" ∧
      e.status = pyDictGet sampleGithubPayload "action" ∧
      e.url = pyDictGet sampleGithubRun "html_url" ∧
      e.logs = PyVal.str "" :=
  normalize_event_github_amended sampleGithubPayload sampleGithubRun rfl rfl

/-- C9 counterexample: a truthy non-string `logs` value of a Jenkins build is
passed through unchanged, so the result's logs field is not a string. -/
theorem normalize_event_logs_not_string :
    (ProcessEvent.normalize_event
        (PyVal.dict [("build", PyVal.dict [("logs", PyVal.int 5)])])).map
      (fun e => isStr e.logs) = Except.ok false := rfl

/-- C9 (amended): every canonical event normalize_event returns has source
jenkins, github or unknown, and a logs field that is never null and never
absent: it is always either a string or a truthy value passed through from
the build's logs field. -/
theorem normalize_event_invariants_amended (p : PyVal) (e : ProcessEvent.CanonicalEvent)
    (h : ProcessEvent.normalize_event p = Except.ok e) :
    (e.source = "jenkins" ∨ e.source = "github" ∨ e.source = "unknown") ∧
    e.logs ≠ PyVal.none ∧
    (isStr e.logs = true ∨ pyTruthy e.logs = true) := by
  cases p with
  | dict kvs =>
    simp only [ProcessEvent.normalize_event] at h
    split at h
    · simp only [ProcessEvent.jenkinsShape] at h
      split at h
      · rename_i bkvs heq
        injection h with h'; subst h'
        refine ⟨Or.inl rfl, ?_, ?_⟩
        · show pyOr (pyDictGet bkvs "logs") (PyVal.str "") ≠ PyVal.none
          cases hc : pyTruthy (pyDictGet bkvs "logs") with
          | false => simp [pyOr, hc]
          | true =>
            simp only [pyOr, hc, if_pos]
            intro hn
            rw [hn] at hc
            simp [pyTruthy] at hc
        · show isStr (pyOr (pyDictGet bkvs "logs") (PyVal.str "")) = true ∨
            pyTruthy (pyOr (pyDictGet bkvs "logs") (PyVal.str "")) = true
          cases hc : pyTruthy (pyDictGet bkvs "logs") with
          | false => exact Or.inl (by simp [pyOr, hc, isStr])
          | true => exact Or.inr (by simp [pyOr, hc])
      · exact absurd h (by simp)
    · split at h
      · simp only [ProcessEvent.githubShape] at h
        split at h
        · injection h with h'; subst h'
          exact ⟨Or.inr (Or.inl rfl), by simp, Or.inl rfl⟩
        · exact absurd h (by simp)
      · injection h with h'; subst h'
        exact ⟨Or.inr (Or.inr rfl), by simp, Or.inl rfl⟩
  | none =>
    simp only [ProcessEvent.normalize_event] at h; injection h with h'; subst h'
    exact ⟨Or.inr (Or.inr rfl), by simp, Or.inl rfl⟩
  | bool b =>
    simp only [ProcessEvent.normalize_event] at h; injection h with h'; subst h'
    exact ⟨Or.inr (Or.inr rfl), by simp, Or.inl rfl⟩
  | int n =>
    simp only [ProcessEvent.normalize_event] at h; injection h with h'; subst h'
    exact ⟨Or.inr (Or.inr rfl), by simp, Or.inl rfl⟩
  | str s =>
    simp only [ProcessEvent.normalize_event] at h; injection h with h'; subst h'
    exact ⟨Or.inr (Or.inr rfl), by simp, Or.inl rfl⟩
  | list xs =>
    simp only [ProcessEvent.normalize_event] at h; injection h with h'; subst h'
    exact ⟨Or.inr (Or.inr rfl), by simp, Or.inl rfl⟩

/-- C9 witness: the amended invariant theorem instantiated at a concrete
Jenkins payload. -/
theorem normalize_event_invariants_amended_witness :
    (("jenkins" : String) = "jenkins" ∨ ("jenkins" : String) = "github" ∨
      ("jenkins" : String) = "unknown") ∧
    PyVal.str "L" ≠ PyVal.none ∧
    (isStr (PyVal.str "L") = true ∨ pyTruthy (PyVal.str "L") = true) :=
  normalize_event_invariants_amended (PyVal.dict sampleJenkinsPayload)
    (ProcessEvent.CanonicalEvent.mk "jenkins" PyVal.none PyVal.none (PyVal.str "L")
      (PyVal.dict sampleJenkinsPayload)) rfl

/-- C1 exhibits the code bug: on the log `junk\nERROR: boom` the ERROR
pattern class produces the match `ERROR: boom`, yet extract_error_blocks
(with the default cap 5) returns the last-500-lines fallback block — the
whole log — because the collected blocks are only returned by the early
return at the cap, and are discarded on fall-through. -/
theorem extract_error_blocks_ignores_collected_blocks :
    LogProcessor.extract_error_blocks "junk\nERROR: boom".data 5 =
      ["junk\nERROR: boom".data] ∧
    LogProcessor.patMatches (LogProcessor.ERROR_PATTERNS.getD 1 ⟨[], 0⟩)
      "junk\nERROR: boom".data = ["ERROR: boom".data] ∧
    "junk\nERROR: boom".data ≠ "ERROR: boom".data := by
  refine ⟨by decide, by decide, by decide⟩

/-- Helper for C8: joining with a separator merges the two leading chunks
into one pre-joined chunk. -/
theorem joinSep_glue {α : Type} (sep x y : List α) (L : List (List α)) :
    joinSep sep (x :: y :: L) = joinSep sep ((x ++ sep ++ y) :: L) := by
  cases L with
  | nil => rfl
  | cons z L' => simp [joinSep, List.append_assoc]

/-- Helper for C8: join is a congruence in the tail when the two tails are
empty together and join to the same text. -/
theorem joinSep_congr_tail {α : Type} (sep x : List α) {L1 L2 : List (List α)}
    (hemp : L1 = [] ↔ L2 = []) (hj : joinSep sep L1 = joinSep sep L2) :
    joinSep sep (x :: L1) = joinSep sep (x :: L2) := by
  cases L1 with
  | nil =>
    have h2 : L2 = [] := hemp.mp rfl
    subst h2; rfl
  | cons a L1' =>
    cases L2 with
    | nil => simp at hemp
    | cons c L2' =>
      show x ++ sep ++ joinSep sep (a :: L1') = x ++ sep ++ joinSep sep (c :: L2')
      rw [hj]

/-- Helper for C8: the header/content list is empty exactly for the empty
block list. -/
theorem summaryItems_eq_nil_iff (i : Nat) (bs : List (List Char)) :
    LogProcessor.summaryItems i bs = [] ↔ bs = [] := by
  cases bs <;> simp [LogProcessor.summaryItems]

/-- Helper for C8: the pair list is empty exactly for the empty block list. -/
theorem summaryPairs_eq_nil_iff (i : Nat) (bs : List (List Char)) :
    LogProcessor.summaryPairs i bs = [] ↔ bs = [] := by
  cases bs <;> simp [LogProcessor.summaryPairs]

/-- Helper for C8: the flat header/content list of make_summary and the
pre-joined header-plus-content pairs of the spec-side builder produce the
same blank-line-joined text, for any starting index. -/
theorem summary_join_eq (bs : List (List Char)) : ∀ i : Nat,
    joinSep LogProcessor.nlnl (LogProcessor.summaryItems i bs) =
      joinSep LogProcessor.nlnl (LogProcessor.summaryPairs i bs) := by
  induction bs with
  | nil => intro i; rfl
  | cons b bs ih =>
    intro i
    have e1 : LogProcessor.summaryItems i (b :: bs) =
        LogProcessor.blockHeader i :: b.take 2000 ::
          LogProcessor.summaryItems (i + 1) bs := rfl
    have e2 : LogProcessor.summaryPairs i (b :: bs) =
        (LogProcessor.blockHeader i ++ LogProcessor.nlnl ++ b.take 2000) ::
          LogProcessor.summaryPairs (i + 1) bs := rfl
    rw [e1, e2, joinSep_glue]
    apply joinSep_congr_tail
    · rw [summaryItems_eq_nil_iff, summaryPairs_eq_nil_iff]
    · exact ih (i + 1)

/-- C8: make_summary of the empty list is empty; a single block `x` yields
exactly the header, a blank line and `x`; and in general make_summary equals
the spec-side builder, which truncates every block to its first 2000
characters, numbers blocks from 1, and joins header-plus-block pairs with a
blank line. -/
theorem make_summary_spec_correct :
    LogProcessor.make_summary [] = [] ∧
    LogProcessor.make_summary ["x".data] =
      "--- Error block 1 (first 2000 chars) ---\n\nx".data ∧
    ∀ blocks : List (List Char),
      LogProcessor.make_summary blocks = LogProcessor.make_summary_spec blocks := by
  refine ⟨rfl, by decide, ?_⟩
  intro blocks
  simpa [LogProcessor.make_summary, LogProcessor.make_summary_spec] using
    summary_join_eq blocks 1

/-- C3 counterexample: with `max_blocks = 0` the extractor still returns one
block (the cap check fires only after an append), exceeding the claimed
bound. -/
theorem extract_error_blocks_exceeds_zero_cap :
    ¬ (LogProcessor.extract_error_blocks "ERROR: x".data 0).length ≤ 0 := by decide

/-- Helper for C3: the inner append loop, started below the cap, ends exactly
at the cap when it early-returns, and stays below it otherwise. -/
theorem appendCapped_length (max : Nat) : ∀ (ms blocks : List (List Char)),
    blocks.length < max →
    ((LogProcessor.appendCapped max blocks ms).2 = true →
      (LogProcessor.appendCapped max blocks ms).1.length = max) ∧
    ((LogProcessor.appendCapped max blocks ms).2 = false →
      (LogProcessor.appendCapped max blocks ms).1.length < max) := by
  intro ms
  induction ms with
  | nil =>
    intro blocks h
    refine ⟨?_, ?_⟩
    · intro ht; simp [LogProcessor.appendCapped] at ht
    · intro _; simpa [LogProcessor.appendCapped] using h
  | cons m ms ih =>
    intro blocks h
    by_cases hc : max ≤ (blocks ++ [pyStrip m]).length
    · refine ⟨?_, ?_⟩
      · intro _
        simp only [LogProcessor.appendCapped, if_pos hc]
        simp at hc ⊢
        omega
      · intro hf
        simp only [LogProcessor.appendCapped, if_pos hc] at hf
        exact Bool.noConfusion hf
    · have h' : (blocks ++ [pyStrip m]).length < max := by omega
      refine ⟨?_, ?_⟩
      · intro ht
        simp only [LogProcessor.appendCapped, if_neg hc] at ht ⊢
        exact (ih _ h').1 ht
      · intro hf
        simp only [LogProcessor.appendCapped, if_neg hc] at hf ⊢
        exact (ih _ h').2 hf

/-- Helper for C3: whenever the append loop early-returns, its result is
non-empty. -/
theorem appendCapped_pos (max : Nat) : ∀ (ms blocks : List (List Char)),
    (LogProcessor.appendCapped max blocks ms).2 = true →
    1 ≤ (LogProcessor.appendCapped max blocks ms).1.length := by
  intro ms
  induction ms with
  | nil => intro blocks ht; simp [LogProcessor.appendCapped] at ht
  | cons m ms ih =>
    intro blocks ht
    by_cases hc : max ≤ (blocks ++ [pyStrip m]).length
    · simp only [LogProcessor.appendCapped, if_pos hc]
      simp
    · simp only [LogProcessor.appendCapped, if_neg hc] at ht ⊢
      exact ih _ ht

/-- Helper for C3: the outer pattern loop, started below the cap, ends
exactly at the cap whenever it early-returns. -/
theorem runPatterns_length (max : Nat) (log : List Char) :
    ∀ (ps : List LogProcessor.ErrorPattern) (blocks : List (List Char)),
    blocks.length < max →
    (LogProcessor.runPatterns max log ps blocks).2 = true →
    (LogProcessor.runPatterns max log ps blocks).1.length = max := by
  intro ps
  induction ps with
  | nil => intro blocks h ht; simp [LogProcessor.runPatterns] at ht
  | cons p ps ih =>
    intro blocks h ht
    simp only [LogProcessor.runPatterns] at ht ⊢
    cases he : LogProcessor.appendCapped max blocks (LogProcessor.patMatches p log) with
    | mk blocks' flag =>
      cases flag with
      | true =>
        simp only [he] at ht ⊢
        have := (appendCapped_length max (LogProcessor.patMatches p log) blocks h).1
        rw [he] at this
        exact this rfl
      | false =>
        simp only [he] at ht ⊢
        have hlt := (appendCapped_length max (LogProcessor.patMatches p log) blocks h).2
        rw [he] at hlt
        exact ih blocks' (hlt rfl) ht

/-- Helper for C3: whenever the outer loop early-returns, its result is
non-empty. -/
theorem runPatterns_pos (max : Nat) (log : List Char) :
    ∀ (ps : List LogProcessor.ErrorPattern) (blocks : List (List Char)),
    (LogProcessor.runPatterns max log ps blocks).2 = true →
    1 ≤ (LogProcessor.runPatterns max log ps blocks).1.length := by
  intro ps
  induction ps with
  | nil => intro blocks ht; simp [LogProcessor.runPatterns] at ht
  | cons p ps ih =>
    intro blocks ht
    simp only [LogProcessor.runPatterns] at ht ⊢
    cases he : LogProcessor.appendCapped max blocks (LogProcessor.patMatches p log) with
    | mk blocks' flag =>
      cases flag with
      | true =>
        simp only [he] at ht ⊢
        have := appendCapped_pos max (LogProcessor.patMatches p log) blocks
        rw [he] at this
        exact this rfl
      | false =>
        simp only [he] at ht ⊢
        exact ih blocks' ht

/-- C3 (amended): for every log and every cap of at least one block, the
extractor returns at most `max_blocks` blocks, and for every non-empty log it
returns at least one block. -/
theorem extract_error_blocks_count_bounds (log : List Char) (max_blocks : Nat) :
    (1 ≤ max_blocks →
      (LogProcessor.extract_error_blocks log max_blocks).length ≤ max_blocks) ∧
    (log ≠ [] →
      1 ≤ (LogProcessor.extract_error_blocks log max_blocks).length) := by
  cases he : LogProcessor.runPatterns max_blocks log LogProcessor.ERROR_PATTERNS [] with
  | mk blocks flag =>
    cases flag with
    | true =>
      have h1 := runPatterns_pos max_blocks log LogProcessor.ERROR_PATTERNS []
      rw [he] at h1
      refine ⟨?_, ?_⟩
      · intro hm
        have h2 := runPatterns_length max_blocks log LogProcessor.ERROR_PATTERNS []
          (by simpa using hm)
        rw [he] at h2
        simp only [LogProcessor.extract_error_blocks, he]
        exact le_of_eq (h2 rfl)
      · intro _
        simp only [LogProcessor.extract_error_blocks, he]
        exact h1 rfl
    | false =>
      refine ⟨?_, ?_⟩
      · intro hm
        simp only [LogProcessor.extract_error_blocks, he]
        simpa using hm
      · intro _
        simp [LogProcessor.extract_error_blocks, he]

/-- C3 witness: the amended count bounds instantiated at a concrete log and
the default cap. -/
theorem extract_error_blocks_count_bounds_witness :
    (LogProcessor.extract_error_blocks "x".data 5).length ≤ 5 ∧
    1 ≤ (LogProcessor.extract_error_blocks "x".data 5).length :=
  ⟨(extract_error_blocks_count_bounds "x".data 5).1 (by decide),
   (extract_error_blocks_count_bounds "x".data 5).2 (by decide)⟩

/-- Helper for C6: a hit of the bounded rfind is an occurrence within the
bound. -/
theorem rfindAux_isPrefixOf (hay pat : List Char) : ∀ (n i : Nat),
    ProcessEvent.rfindAux hay pat n = some i →
    pat.isPrefixOf (hay.drop i) = true ∧ i ≤ n := by
  intro n
  induction n with
  | zero =>
    intro i h
    simp only [ProcessEvent.rfindAux] at h
    split at h
    · injection h with h'
      subst h'
      rename_i hp
      exact ⟨by simpa using hp, Nat.le_refl 0⟩
    · exact absurd h (by simp)
  | succ n ih =>
    intro i h
    simp only [ProcessEvent.rfindAux] at h
    split at h
    · injection h with h'
      subst h'
      rename_i hp
      exact ⟨hp, Nat.le_refl _⟩
    · obtain ⟨h1, h2⟩ := ih i h
      exact ⟨h1, Nat.le_succ_of_le h2⟩

/-- Helper for C6: a hit of the bounded rfind dominates every occurrence
within the bound. -/
theorem rfindAux_maximal (hay pat : List Char) : ∀ (n i : Nat),
    ProcessEvent.rfindAux hay pat n = some i →
    ∀ j, j ≤ n → pat.isPrefixOf (hay.drop j) = true → j ≤ i := by
  intro n
  induction n with
  | zero =>
    intro i h j hj _
    omega
  | succ n ih =>
    intro i h j hj hp
    simp only [ProcessEvent.rfindAux] at h
    split at h
    · injection h with h'
      subst h'
      exact hj
    · rename_i hnp
      rcases Nat.lt_succ_iff_lt_or_eq.mp (Nat.lt_succ_of_le hj) with hlt | heq
      · exact ih i h j (by omega) hp
      · subst heq
        exact absurd hp (by simpa using hnp)

/-- Helper for C6: a miss of the bounded rfind means no occurrence within the
bound. -/
theorem rfindAux_none (hay pat : List Char) : ∀ (n : Nat),
    ProcessEvent.rfindAux hay pat n = Option.none →
    ∀ j, j ≤ n → pat.isPrefixOf (hay.drop j) = false := by
  intro n
  induction n with
  | zero =>
    intro h j hj
    simp only [ProcessEvent.rfindAux] at h
    split at h
    · exact absurd h (by simp)
    · rename_i hnp
      have : j = 0 := Nat.le_zero.mp hj
      subst this
      simpa using (Bool.not_eq_true _).mp hnp
  | succ n ih =>
    intro h j hj
    simp only [ProcessEvent.rfindAux] at h
    split at h
    · exact absurd h (by simp)
    · rename_i hnp
      rcases Nat.lt_succ_iff_lt_or_eq.mp (Nat.lt_succ_of_le hj) with hlt | heq
      · exact ih h j (by omega)
      · subst heq
        exact (Bool.not_eq_true _).mp hnp

/-- Helper for C6: when no occurrence exists, rfind misses. -/
theorem pyRfind_none_of_not_occurs (hay pat : List Char)
    (h : ProcessEvent.occursB pat hay = false) :
    ProcessEvent.pyRfind hay pat = Option.none := by
  cases he : ProcessEvent.pyRfind hay pat with
  | none => rfl
  | some i =>
    obtain ⟨h1, h2⟩ := rfindAux_isPrefixOf hay pat hay.length i he
    have : ProcessEvent.occursB pat hay = true := by
      simp only [ProcessEvent.occursB, List.any_eq_true]
      exact ⟨i, List.mem_range.mpr (Nat.lt_succ_of_le h2), h1⟩
    rw [this] at h
    exact Bool.noConfusion h

/-- Helper for C6: a position passing the last-occurrence test is exactly the
rfind result. -/
theorem pyRfind_of_lastOcc (hay pat : List Char) (i : Nat)
    (h : ProcessEvent.lastOccB pat hay i = true) :
    ProcessEvent.pyRfind hay pat = some i := by
  simp only [ProcessEvent.lastOccB, Bool.and_eq_true, List.all_eq_true,
    decide_eq_true_eq] at h
  obtain ⟨⟨hle, hp⟩, hmax⟩ := h
  cases he : ProcessEvent.pyRfind hay pat with
  | none =>
    have := rfindAux_none hay pat hay.length he i hle
    rw [hp] at this
    exact Bool.noConfusion this
  | some i' =>
    obtain ⟨h1, h2⟩ := rfindAux_isPrefixOf hay pat hay.length i' he
    have hii' : i ≤ i' := rfindAux_maximal hay pat hay.length i' he i hle hp
    have hi'i : i' ≤ i := by
      have := hmax i' (List.mem_range.mpr (Nat.lt_succ_of_le h2))
      simp only [Bool.or_eq_true, Bool.not_eq_true', decide_eq_true_eq] at this
      rcases this with hcontra | hfine
      · rw [h1] at hcontra
        exact absurd hcontra (by simp)
      · exact hfine
    have : i = i' := Nat.le_antisymm hii' hi'i
    rw [this]

/-- Helper for C6: the marker loop misses when no marker occurs. -/
theorem scanMarkers_none (tail : List Char) : ∀ (ms : List (List Char)),
    (∀ m ∈ ms, ProcessEvent.occursB m tail = false) →
    ProcessEvent.scanMarkers tail ms = Option.none := by
  intro ms
  induction ms with
  | nil => intro _; rfl
  | cons m ms ih =>
    intro h
    have hm := pyRfind_none_of_not_occurs tail m (h m (List.mem_cons_self m ms))
    simp only [ProcessEvent.scanMarkers, hm]
    exact ih fun m' hm' => h m' (List.mem_cons_of_mem m hm')

/-- Helper for C6: the marker loop returns the suffix from the last
occurrence of the first marker that occurs at all. -/
theorem scanMarkers_hit (tail : List Char) : ∀ (ms : List (List Char)) (k i : Nat),
    k < ms.length →
    ProcessEvent.lastOccB (ms.getD k []) tail i = true →
    (∀ j, j < k → ProcessEvent.occursB (ms.getD j []) tail = false) →
    ProcessEvent.scanMarkers tail ms = some (tail.drop i) := by
  intro ms
  induction ms with
  | nil => intro k i hk _ _; simp at hk
  | cons m ms ih =>
    intro k i hk hlast hearlier
    cases k with
    | zero =>
      have := pyRfind_of_lastOcc tail m i (by simpa using hlast)
      simp only [ProcessEvent.scanMarkers, this]
    | succ k' =>
      have hm : ProcessEvent.occursB m tail = false := by
        simpa using hearlier 0 (Nat.succ_pos k')
      have hrf := pyRfind_none_of_not_occurs tail m hm
      simp only [ProcessEvent.scanMarkers, hrf]
      exact ih k' i (by simpa using hk) (by simpa using hlast)
        fun j hj => by simpa using hearlier (j + 1) (by omega)

/-- C6: the event-path extractor truncates to the final 16000 characters;
when some marker of the ordered list occurs in that tail, the result is the
suffix of the tail from the last occurrence of the first (highest-priority)
marker that occurs; when no marker occurs, the result is the final 2000
characters of the tail. -/
theorem extract_error_blocks_pe_marker_search (log : List Char) :
    (∀ k, k < ProcessEvent.pe_markers.length → ∀ i,
      ProcessEvent.lastOccB (ProcessEvent.pe_markers.getD k []) (takeLast 16000 log) i = true →
      (∀ j, j < k →
        ProcessEvent.occursB (ProcessEvent.pe_markers.getD j []) (takeLast 16000 log) = false) →
      ProcessEvent.extract_error_blocks log = (takeLast 16000 log).drop i) ∧
    ((∀ m ∈ ProcessEvent.pe_markers,
        ProcessEvent.occursB m (takeLast 16000 log) = false) →
      ProcessEvent.extract_error_blocks log = takeLast 2000 (takeLast 16000 log)) := by
  constructor
  · intro k hk i hlast hearlier
    have hs := scanMarkers_hit (takeLast 16000 log) ProcessEvent.pe_markers k i hk hlast hearlier
    cases log with
    | nil => simp [ProcessEvent.extract_error_blocks, takeLast]
    | cons c cs => simp [ProcessEvent.extract_error_blocks, hs]
  · intro hnone
    have hs := scanMarkers_none (takeLast 16000 log) ProcessEvent.pe_markers hnone
    cases log with
    | nil => simp [ProcessEvent.extract_error_blocks, takeLast]
    | cons c cs => simp [ProcessEvent.extract_error_blocks, hs]

/-- C6 witness: the marker-search characterization instantiated at a log
whose only marker is a `fatal:` at position 3, and at a marker-free log. -/
theorem extract_error_blocks_pe_marker_search_witness :
    ProcessEvent.extract_error_blocks "ab fatal: x".data =
      (takeLast 16000 "ab fatal: x".data).drop 3 ∧
    ProcessEvent.extract_error_blocks "no markers here".data =
      takeLast 2000 (takeLast 16000 "no markers here".data) :=
  ⟨(extract_error_blocks_pe_marker_search "ab fatal: x".data).1 4 (by decide) 3
      (by decide) (by decide),
   (extract_error_blocks_pe_marker_search "no markers here".data).2 (by decide)⟩

/-- Helper for C10: whatever the marker loop returns is a suffix obtained by
dropping a prefix of the tail. -/
theorem scanMarkers_drop (tail : List Char) : ∀ (ms : List (List Char)) (r : List Char),
    ProcessEvent.scanMarkers tail ms = some r → ∃ i, r = tail.drop i := by
  intro ms
  induction ms with
  | nil => intro r h; exact absurd h (by simp [ProcessEvent.scanMarkers])
  | cons m ms ih =>
    intro r h
    simp only [ProcessEvent.scanMarkers] at h
    cases he : ProcessEvent.pyRfind tail m with
    | none =>
      rw [he] at h
      exact ih r h
    | some idx =>
      rw [he] at h
      injection h with h'
      exact ⟨idx, h'.symm⟩

/-- C10: the event-path extractor maps empty input to the empty string, and
always returns a contiguous suffix of its input of length at most 16000. -/
theorem extract_error_blocks_pe_suffix_bound :
    ProcessEvent.extract_error_blocks [] = [] ∧
    ∀ log : List Char,
      ProcessEvent.extract_error_blocks log <:+ log ∧
      (ProcessEvent.extract_error_blocks log).length ≤ 16000 := by
  refine ⟨rfl, ?_⟩
  intro log
  cases log with
  | nil => exact ⟨List.nil_suffix, by decide⟩
  | cons c cs =>
    have htsuf : takeLast 16000 (c :: cs) <:+ (c :: cs) := List.drop_suffix _ _
    have htlen : (takeLast 16000 (c :: cs)).length ≤ 16000 := by
      simp only [takeLast, List.length_drop]
      omega
    cases hs : ProcessEvent.scanMarkers (takeLast 16000 (c :: cs)) ProcessEvent.pe_markers with
    | none =>
      have hval : ProcessEvent.extract_error_blocks (c :: cs) =
          takeLast 2000 (takeLast 16000 (c :: cs)) := by
        simp [ProcessEvent.extract_error_blocks, hs]
      refine ⟨?_, ?_⟩
      · rw [hval]
        exact ((List.drop_suffix _ _).trans htsuf)
      · rw [hval]
        show ((takeLast 16000 (c :: cs)).drop ((takeLast 16000 (c :: cs)).length - 2000)).length ≤ 16000
        simp only [List.length_drop]
        omega
    | some r =>
      obtain ⟨i, hi⟩ := scanMarkers_drop _ _ _ hs
      subst hi
      have hval : ProcessEvent.extract_error_blocks (c :: cs) =
          (takeLast 16000 (c :: cs)).drop i := by
        simp [ProcessEvent.extract_error_blocks, hs]
      refine ⟨?_, ?_⟩
      · rw [hval]
        exact ((List.drop_suffix _ _).trans htsuf)
      · rw [hval]
        simp only [List.length_drop]
        omega
